import Mathlib

/-!
# Verification of the gomail email library against its specification

Shallow embedding of the go-gomail/gomail source (message model, MIME
serializer skeleton, header flattening, recipient/sender resolution,
line-folding writers, SMTP retry loop, auth selection) together with
theorems settling the frozen claims C1..C10.

Bytes are modelled as `Nat` (values 0..255), byte strings as `List Nat`,
Go strings as Lean `String` or `List Char` where convenient.
-/

namespace Gomail

/-! ## Message model (message.go / writeto.go)

A body part carries its content type; the content producer is kept
abstract (claims about body content are settled elsewhere).  Files keep
only the fields the claims need. -/

inductive Encoding where
  | quotedPrintable
  | base64
  | unencoded
deriving DecidableEq, Repr

structure Part where
  contentType : String
deriving Repr, DecidableEq

structure File where
  name : String
deriving Repr, DecidableEq

structure Message where
  header : List (String × List String)
  parts : List Part
  attachments : List File
  embedded : List File
  charset : String
  encoding : Encoding
deriving Repr

/-! ## C2: multipart nesting (writeto.go `hasMixedPart`, `hasRelatedPart`,
`hasAlternativePart`, `writeMessage`) -/

/-- `(len(msg.parts) > 0 && len(msg.attachments) > 0) || len(msg.attachments) > 1` -/
def Message.hasMixedPart (msg : Message) : Bool :=
  (msg.parts.length > 0 && msg.attachments.length > 0) || msg.attachments.length > 1

/-- `(len(msg.parts) > 0 && len(msg.embedded) > 0) || len(msg.embedded) > 1` -/
def Message.hasRelatedPart (msg : Message) : Bool :=
  (msg.parts.length > 0 && msg.embedded.length > 0) || msg.embedded.length > 1

/-- `len(msg.parts) > 1` -/
def Message.hasAlternativePart (msg : Message) : Bool :=
  msg.parts.length > 1

/-- Structural events emitted by `writeMessage`: opening/closing a
multipart level, writing a body part, writing an embedded or attached
file. -/
inductive MimeEvent where
  | openMP (mimeType : String)
  | closeMP
  | bodyPart (p : Part)
  | fileEmbedded (f : File)
  | fileAttached (f : File)
deriving DecidableEq, Repr

/-- Straight-line translation of the statement sequence of
`messageWriter.writeMessage` (writeto.go), recording only the structural
events (multipart opens/closes, parts, files) in the order the code
performs them. -/
def writeMessageEvents (msg : Message) : List MimeEvent :=
  (if msg.hasMixedPart then [MimeEvent.openMP "mixed"] else []) ++
  (if msg.hasRelatedPart then [MimeEvent.openMP "related"] else []) ++
  (if msg.hasAlternativePart then [MimeEvent.openMP "alternative"] else []) ++
  (msg.parts.map MimeEvent.bodyPart) ++
  (if msg.hasAlternativePart then [MimeEvent.closeMP] else []) ++
  (msg.embedded.map MimeEvent.fileEmbedded) ++
  (if msg.hasRelatedPart then [MimeEvent.closeMP] else []) ++
  (msg.attachments.map MimeEvent.fileAttached) ++
  (if msg.hasMixedPart then [MimeEvent.closeMP] else [])

/-- Wrap an event list in an `openMP name … closeMP` pair when `cond`
holds; the spec-side description of one optional nesting level. -/
def optWrap (cond : Bool) (name : String) (inner : List MimeEvent) : List MimeEvent :=
  if cond then MimeEvent.openMP name :: inner ++ [MimeEvent.closeMP] else inner

/-- Spec-side nesting: mixed ⊃ (related ⊃ (alternative ⊃ parts), embedded), attachments,
with each level present iff its part-count predicate holds. -/
def specNesting (msg : Message) : List MimeEvent :=
  optWrap ((msg.parts.length ≥ 1 && msg.attachments.length ≥ 1) || msg.attachments.length ≥ 2) "mixed"
    (optWrap ((msg.parts.length ≥ 1 && msg.embedded.length ≥ 1) || msg.embedded.length ≥ 2) "related"
      (optWrap (msg.parts.length ≥ 2) "alternative" (msg.parts.map MimeEvent.bodyPart)
        ++ msg.embedded.map MimeEvent.fileEmbedded)
      ++ msg.attachments.map MimeEvent.fileAttached)

/-- The straight-line event sequence equals the nested wrap form, for any
conditions and inner lists (pure list bookkeeping). -/
theorem wrapEvents_eq (A B C : Bool) (P E T : List MimeEvent) :
    (if A then [MimeEvent.openMP "mixed"] else []) ++
    (if B then [MimeEvent.openMP "related"] else []) ++
    (if C then [MimeEvent.openMP "alternative"] else []) ++
    P ++
    (if C then [MimeEvent.closeMP] else []) ++
    E ++
    (if B then [MimeEvent.closeMP] else []) ++
    T ++
    (if A then [MimeEvent.closeMP] else []) =
    optWrap A "mixed" (optWrap B "related" (optWrap C "alternative" P ++ E) ++ T) := by
  cases A <;> cases B <;> cases C <;> simp [optWrap]

theorem mem_openMP_optWrap (cond : Bool) (name : String) (inner : List MimeEvent)
    (s : String) :
    MimeEvent.openMP s ∈ optWrap cond name inner ↔
      (cond = true ∧ s = name) ∨ MimeEvent.openMP s ∈ inner := by
  cases cond <;> simp [optWrap]

theorem not_openMP_mem_bodyParts (ps : List Part) (s : String) :
    MimeEvent.openMP s ∉ ps.map MimeEvent.bodyPart := by
  intro h
  rcases List.mem_map.1 h with ⟨q, _, hq⟩
  exact MimeEvent.noConfusion hq

theorem not_openMP_mem_embedded (fs : List File) (s : String) :
    MimeEvent.openMP s ∉ fs.map MimeEvent.fileEmbedded := by
  intro h
  rcases List.mem_map.1 h with ⟨q, _, hq⟩
  exact MimeEvent.noConfusion hq

theorem not_openMP_mem_attached (fs : List File) (s : String) :
    MimeEvent.openMP s ∉ fs.map MimeEvent.fileAttached := by
  intro h
  rcases List.mem_map.1 h with ⟨q, _, hq⟩
  exact MimeEvent.noConfusion hq

theorem writeMessageEvents_eq_specNesting (msg : Message) :
    writeMessageEvents msg = specNesting msg := by
  unfold writeMessageEvents specNesting Message.hasMixedPart Message.hasRelatedPart
    Message.hasAlternativePart
  exact wrapEvents_eq _ _ _ _ _ _

/-- **C2** — the serializer's event sequence is exactly the spec's nested
form: a `multipart/mixed` level iff (≥1 part ∧ ≥1 attachment) ∨ ≥2
attachments, a `multipart/related` level iff (≥1 part ∧ ≥1 embedded) ∨ ≥2
embedded, a `multipart/alternative` level iff ≥2 parts, nested in the
order mixed ⊃ related ⊃ alternative. -/
theorem c2_multipart_nesting (msg : Message) :
    writeMessageEvents msg = specNesting msg ∧
    ((MimeEvent.openMP "mixed" ∈ writeMessageEvents msg) ↔
      ((1 ≤ msg.parts.length ∧ 1 ≤ msg.attachments.length) ∨ 2 ≤ msg.attachments.length)) ∧
    ((MimeEvent.openMP "related" ∈ writeMessageEvents msg) ↔
      ((1 ≤ msg.parts.length ∧ 1 ≤ msg.embedded.length) ∨ 2 ≤ msg.embedded.length)) ∧
    ((MimeEvent.openMP "alternative" ∈ writeMessageEvents msg) ↔
      2 ≤ msg.parts.length) := by
  refine ⟨writeMessageEvents_eq_specNesting msg, ?_, ?_, ?_⟩ <;>
    rw [writeMessageEvents_eq_specNesting msg] <;>
      unfold specNesting <;>
        simp only [mem_openMP_optWrap, List.mem_append,
          (by exact fun s => iff_false_intro (not_openMP_mem_bodyParts msg.parts s) :
            ∀ s, (MimeEvent.openMP s ∈ msg.parts.map MimeEvent.bodyPart) ↔ False),
          (by exact fun s => iff_false_intro (not_openMP_mem_embedded msg.embedded s) :
            ∀ s, (MimeEvent.openMP s ∈ msg.embedded.map MimeEvent.fileEmbedded) ↔ False),
          (by exact fun s => iff_false_intro (not_openMP_mem_attached msg.attachments s) :
            ∀ s, (MimeEvent.openMP s ∈ msg.attachments.map MimeEvent.fileAttached) ↔ False)] <;>
          simp

/-! ## C6: Bcc exclusion from the transmitted header block
(send.go `flattenHeader`; writeto.go `messageWriter.writeHeaders` uses the
same `field != "Bcc"` filter at depth 0).

`flattenHeader` iterates over the header map and, for every field other
than `"Bcc"`, writes `field ++ ": " ++ strings.Join(value, ", ") ++ "\r\n"`,
then a final blank line.  We model the emitted block as a list of
structured lines (Go map iteration order is abstracted as the list
order). -/

inductive HLine where
  | field (name : String) (value : String)
  | blank
deriving DecidableEq, Repr

/-- `flattenHeader` from send.go, one structured line per non-Bcc field,
then the blank separator line. -/
def flattenHeader (h : List (String × List String)) : List HLine :=
  (h.filterMap fun kv =>
    if kv.1 ≠ "Bcc" then some (HLine.field kv.1 (String.intercalate ", " kv.2)) else none)
  ++ [HLine.blank]

theorem flattenHeader_no_bcc (h : List (String × List String)) :
    ∀ name value, HLine.field name value ∈ flattenHeader h → name ≠ "Bcc" := by
  intro name value hmem
  unfold flattenHeader at hmem
  rcases List.mem_append.1 hmem with hmem | hmem
  · rcases List.mem_filterMap.1 hmem with ⟨kv, _, hkv⟩
    by_cases hb : kv.1 ≠ "Bcc"
    · rw [if_pos hb] at hkv
      simp only [Option.some.injEq, HLine.field.injEq] at hkv
      exact hkv.1 ▸ hb
    · simp [hb] at hkv
  · exact HLine.noConfusion (List.mem_singleton.1 hmem)

theorem flattenHeader_mem (h : List (String × List String)) :
    ∀ kv ∈ h, kv.1 ≠ "Bcc" →
      HLine.field kv.1 (String.intercalate ", " kv.2) ∈ flattenHeader h := by
  intro kv hkv hb
  unfold flattenHeader
  refine List.mem_append.2 (Or.inl (List.mem_filterMap.2 ⟨kv, hkv, ?_⟩))
  simp [hb]

/-- **C6** — whatever is stored under "Bcc", the flattened header block
contains no Bcc field line, and every other field is emitted unchanged
(with its values joined by ", "). -/
theorem c6_no_bcc_in_header (h : List (String × List String)) :
    (∀ name value, HLine.field name value ∈ flattenHeader h → name ≠ "Bcc") ∧
    (∀ kv ∈ h, kv.1 ≠ "Bcc" →
      HLine.field kv.1 (String.intercalate ", " kv.2) ∈ flattenHeader h) :=
  ⟨flattenHeader_no_bcc h, flattenHeader_mem h⟩

/-- Closed instance of `c6_no_bcc_in_header` at a concrete header map. -/
theorem c6_no_bcc_in_header_witness :
    (∀ name value,
      HLine.field name value ∈
        flattenHeader [("From", ["a@b.c"]), ("Bcc", ["x@y.z", "w@y.z"]), ("To", ["t@b.c"])] →
      name ≠ "Bcc") ∧
    (HLine.field "To" "t@b.c" ∈
      flattenHeader [("From", ["a@b.c"]), ("Bcc", ["x@y.z", "w@y.z"]), ("To", ["t@b.c"])]) := by
  have h := c6_no_bcc_in_header
    [("From", ["a@b.c"]), ("Bcc", ["x@y.z", "w@y.z"]), ("To", ["t@b.c"])]
  refine ⟨h.1, ?_⟩
  have h2 := h.2 ("To", ["t@b.c"]) (by decide) (by decide)
  simpa using h2

/-! ## C8: envelope sender resolution (send.go `getFrom`)

`getFrom` reads `msg.Header.Get("Sender")` and falls back to
`msg.Header.Get("From")`.  Go's `mail.Header.Get` returns the first value
of the field, or `""` when the field is absent **or** its value list is
empty; `getFrom` then treats `""` as absence.  The address parser
(`net/mail.ParseAddress`, standard library) is kept abstract as a
parameter `parse`. -/

inductive GErr where
  | missingFrom
  | parseErr (s : String)
deriving DecidableEq, Repr

/-- `mail.Header.Get`: first value of the field, `""` if absent or empty. -/
def headerGet (h : List (String × List String)) (k : String) : String :=
  match h.find? (fun kv => kv.1 = k) with
  | none => ""
  | some kv =>
    match kv.2 with
    | [] => ""
    | v :: _ => v

/-- A field is present in the header map (key exists, regardless of value). -/
def headerPresent (h : List (String × List String)) (k : String) : Bool :=
  (h.find? (fun kv => kv.1 = k)).isSome

/-- send.go `getFrom`: prefer `Get("Sender")`, fall back to `Get("From")`,
error when both are `""`, otherwise parse the chosen value. -/
def getFrom (parse : String → Except GErr String)
    (h : List (String × List String)) : Except GErr String :=
  let fr := headerGet h "Sender"
  if fr = "" then
    let fr2 := headerGet h "From"
    if fr2 = "" then Except.error GErr.missingFrom
    else parse fr2
  else parse fr

/-- **C8, counterexample** — the claim says resolution fails with a
missing-From error *exactly when neither header is present*: with the
"From" field present but holding the empty string, the code still returns
the missing-From error, so "exactly" fails. -/
theorem c8_counterexample :
    getFrom (fun s => Except.ok s) [("From", [""])] = Except.error GErr.missingFrom ∧
    headerPresent [("From", [""])] "From" = true := by
  constructor <;> rfl

/-- **C8, amended** — resolution returns `parse` of the "Sender" value
when `Get("Sender")` is non-empty, otherwise `parse` of the "From" value
when `Get("From")` is non-empty, and fails with the missing-From error
exactly when both `Get` results are empty (field absent, value list
empty, or first value the empty string); `parse` is assumed never to
yield the missing-From error itself. -/
theorem c8_amended (parse : String → Except GErr String)
    (hp : ∀ s, parse s ≠ Except.error GErr.missingFrom)
    (h : List (String × List String)) :
    (headerGet h "Sender" ≠ "" → getFrom parse h = parse (headerGet h "Sender")) ∧
    (headerGet h "Sender" = "" → headerGet h "From" ≠ "" →
      getFrom parse h = parse (headerGet h "From")) ∧
    (getFrom parse h = Except.error GErr.missingFrom ↔
      (headerGet h "Sender" = "" ∧ headerGet h "From" = "")) := by
  refine ⟨?_, ?_, ?_⟩
  · intro hs
    unfold getFrom
    simp [hs]
  · intro hs hf
    unfold getFrom
    simp [hs, hf]
  · constructor
    · intro he
      unfold getFrom at he
      by_cases hs : headerGet h "Sender" = ""
      · by_cases hf : headerGet h "From" = ""
        · exact ⟨hs, hf⟩
        · simp [hs, hf] at he
          exact absurd he (hp _)
      · simp [hs] at he
        exact absurd he (hp _)
    · rintro ⟨hs, hf⟩
      unfold getFrom
      simp [hs, hf]

/-- Closed instance of `c8_amended` with a concrete parser and header. -/
theorem c8_amended_witness :
    getFrom (fun s => Except.ok s) [("Sender", ["s@b.c"]), ("From", ["f@b.c"])] =
      Except.ok "s@b.c" := by
  have h := (c8_amended (fun s => Except.ok s)
    (fun s hs => Except.noConfusion hs)
    [("Sender", ["s@b.c"]), ("From", ["f@b.c"])]).1 (by decide)
  simpa using h

/-! ## C1: Bcc handling in `send` (send.go `send`, `getRecipients`, `addAdress`)

The v2 `send` resolves the sender, collects To/Cc/Bcc recipients into a
single deduplicated list, flattens the header (dropping Bcc), and calls
`s.Send(from, to, mail)` **once**.  We model the sequence of `Sender.Send`
calls a `send` performs. -/

/-- `addAdress` from send.go: append unless already in the list. -/
def addAdress (list : List String) (addr : String) : List String :=
  if addr ∈ list then list else list ++ [addr]

/-- Values stored under key `k` (Go `msg.Header[field]` with `ok`). -/
def headerLookup (h : List (String × List String)) (k : String) : Option (List String) :=
  (h.find? (fun kv => kv.1 = k)).map (fun kv => kv.2)

/-- Inner loop of `getRecipients`: parse each address of one field,
propagating the first parse error, deduplicating into `list`. -/
def getRecipientsAux (parse : String → Except GErr String)
    (list : List String) : List String → Except GErr (List String)
  | [] => Except.ok list
  | a :: rest =>
    match parse a with
    | Except.error e => Except.error e
    | Except.ok addr => getRecipientsAux parse (addAdress list addr) rest

/-- One iteration of the `getRecipients` field loop: skip an absent
field, otherwise process its addresses. -/
def recipientsField (parse : String → Except GErr String)
    (h : List (String × List String)) (list : List String) (field : String) :
    Except GErr (List String) :=
  match headerLookup h field with
  | none => Except.ok list
  | some addresses => getRecipientsAux parse list addresses

/-- `getRecipients` from send.go: fields "To", "Cc", "Bcc" in that order
(loop unrolled), propagating the first parse error. -/
def getRecipients (parse : String → Except GErr String)
    (h : List (String × List String)) : Except GErr (List String) :=
  Except.bind (recipientsField parse h [] "To") fun l1 =>
    Except.bind (recipientsField parse h l1 "Cc") fun l2 =>
      recipientsField parse h l2 "Bcc"

/-- One call to `Sender.Send`: envelope from, recipient list, and the
message bytes (header block followed by the body). -/
structure Transmission where
  envFrom : String
  envTo : List String
  headerBlock : List HLine
  body : List Nat
deriving DecidableEq, Repr

/-- send.go `send`: resolve sender and recipients, then call
`s.Send(from, to, mail)` exactly once; the returned list is the sequence
of `Sender.Send` calls performed. -/
def send (parse : String → Except GErr String)
    (h : List (String × List String)) (body : List Nat) :
    Except GErr (List Transmission) :=
  match getFrom parse h with
  | Except.error e => Except.error e
  | Except.ok f =>
    match getRecipients parse h with
    | Except.error e => Except.error e
    | Except.ok tos => Except.ok [⟨f, tos, flattenHeader h, body⟩]

/-- Number of transmissions a `send` performs (0 when it errors out). -/
def transCount : Except GErr (List Transmission) → Nat
  | Except.ok l => l.length
  | Except.error _ => 0

/-- Number of Bcc addresses of a message. -/
def bccCount (h : List (String × List String)) : Nat :=
  ((headerLookup h "Bcc").getD []).length

/-- **C1, counterexample** — for a message with one Bcc address, `send`
performs one single transmission, not the 1 + 1 = 2 the claim's Bcc
fan-out requires (the changelog states v2 deliberately sends the same
message once to all recipients). -/
theorem c1_counterexample :
    bccCount [("From", ["f@b.c"]), ("To", ["t@b.c"]), ("Bcc", ["x@y.z"])] = 1 ∧
    transCount (send (fun s => Except.ok s)
      [("From", ["f@b.c"]), ("To", ["t@b.c"]), ("Bcc", ["x@y.z"])] []) = 1 ∧
    ¬ (transCount (send (fun s => Except.ok s)
      [("From", ["f@b.c"]), ("To", ["t@b.c"]), ("Bcc", ["x@y.z"])] []) = 1 + 1) := by
  have h1 : transCount (send (fun s => Except.ok s)
      [("From", ["f@b.c"]), ("To", ["t@b.c"]), ("Bcc", ["x@y.z"])] []) = 1 := rfl
  exact ⟨rfl, h1, by rw [h1]; omega⟩

theorem getRecipientsAux_ok (parse : String → Except GErr String) (pv : String → String)
    (addrs : List String) (list : List String)
    (hp : ∀ a ∈ addrs, parse a = Except.ok (pv a)) :
    getRecipientsAux parse list addrs = Except.ok ((addrs.map pv).foldl addAdress list) := by
  induction addrs generalizing list with
  | nil => rfl
  | cons a rest ih =>
    unfold getRecipientsAux
    rw [hp a (List.mem_cons_self a rest)]
    simpa using ih (addAdress list (pv a)) (fun b hb => hp b (List.mem_cons_of_mem a hb))

/-- **C1, amended** — whatever the number N of Bcc addresses, `send`
performs exactly one transmission; its recipient list is the first-seen
deduplication of the parsed To, Cc and Bcc addresses (in that order), and
its header block contains no Bcc field.  (`parse` is assumed total here,
modelling inputs whose addresses all parse.) -/
theorem c1_amended (parse : String → Except GErr String) (pv : String → String)
    (h : List (String × List String)) (body : List Nat) (f : String)
    (hp : ∀ a, parse a = Except.ok (pv a))
    (hf : getFrom parse h = Except.ok f) :
    send parse h body =
      Except.ok [⟨f,
        ((((headerLookup h "To").getD []) ++ ((headerLookup h "Cc").getD [])
          ++ ((headerLookup h "Bcc").getD [])).map pv).foldl addAdress [],
        flattenHeader h, body⟩] ∧
    transCount (send parse h body) = 1 ∧
    (∀ name value, HLine.field name value ∈ flattenHeader h → name ≠ "Bcc") := by
  have haux : ∀ (k : String) (list : List String),
      recipientsField parse h list k =
      Except.ok ((((headerLookup h k).getD []).map pv).foldl addAdress list) := by
    intro k list
    unfold recipientsField
    cases hk : headerLookup h k with
    | none => simp [hk]
    | some addresses =>
      simp only [hk, Option.getD_some]
      exact getRecipientsAux_ok parse pv addresses list (fun a _ => hp a)
  have hrec : getRecipients parse h =
      Except.ok (((((headerLookup h "To").getD []) ++ ((headerLookup h "Cc").getD [])
        ++ ((headerLookup h "Bcc").getD [])).map pv).foldl addAdress []) := by
    unfold getRecipients
    rw [haux "To" []]
    simp only [Except.bind]
    rw [haux "Cc" _]
    simp only [Except.bind]
    rw [haux "Bcc" _]
    simp [List.map_append, List.foldl_append]
  have hsend : send parse h body =
      Except.ok [⟨f,
        ((((headerLookup h "To").getD []) ++ ((headerLookup h "Cc").getD [])
          ++ ((headerLookup h "Bcc").getD [])).map pv).foldl addAdress [],
        flattenHeader h, body⟩] := by
    unfold send
    rw [hf, hrec]
  exact ⟨hsend, by rw [hsend]; rfl, flattenHeader_no_bcc h⟩

/-- Closed instance of `c1_amended` at a concrete message with two Bcc
addresses (one duplicating a To recipient). -/
theorem c1_amended_witness :
    send (fun s => Except.ok s)
      [("From", ["f@b.c"]), ("To", ["t@b.c"]), ("Bcc", ["x@y.z", "t@b.c"])] [7] =
      Except.ok [⟨"f@b.c", ["t@b.c", "x@y.z"],
        flattenHeader [("From", ["f@b.c"]), ("To", ["t@b.c"]), ("Bcc", ["x@y.z", "t@b.c"])],
        [7]⟩] := by
  have h := (c1_amended (fun s => Except.ok s) (fun s => s)
    [("From", ["f@b.c"]), ("To", ["t@b.c"]), ("Bcc", ["x@y.z", "t@b.c"])] [7] "f@b.c"
    (fun a => rfl) rfl).1
  rw [h]
  rfl

/-! ## C7: authentication mechanism selection (smtp.go `Dialer.Dial`)

`Dial` runs, when `d.Auth == nil && d.Username != ""` and the server
advertises the AUTH extension with parameter string `auths`:
`strings.Contains(auths, "CRAM-MD5")` → CRAM-MD5, else
`strings.Contains(auths, "LOGIN") && !strings.Contains(auths, "PLAIN")`
→ LOGIN, else PLAIN. -/

/-- `sub` is a prefix of `s` (character lists). -/
def hasPrefixL : List Char → List Char → Bool
  | _, [] => true
  | [], _ :: _ => false
  | c :: cs, d :: ds => c = d && hasPrefixL cs ds

/-- Go `strings.Contains` on character lists: some suffix of `s` starts
with `sub`. -/
def containsL (s sub : List Char) : Bool :=
  hasPrefixL s sub ||
    (match s with
      | [] => false
      | _ :: t => containsL t sub)

/-- Go `strings.Contains`. -/
def strContains (s sub : String) : Bool :=
  containsL s.data sub.data

/-- The `smtp.Auth` value `Dial` installs. -/
inductive Auth where
  | cramMD5 (username password : String)
  | login (username password host : String)
  | plain (identity username password host : String)
  | custom (n : Nat)
deriving DecidableEq, Repr

/-- The auth-selection block of `Dialer.Dial` (smtp.go): returns the
value of `d.Auth` after the block, given the configured explicit auth,
credentials, whether the AUTH extension is advertised, and its
parameter string. -/
def dialSelectAuth (dAuth : Option Auth) (username password host : String)
    (authExt : Bool) (auths : String) : Option Auth :=
  match dAuth with
  | some a => some a
  | none =>
    if username ≠ "" then
      if authExt then
        if strContains auths "CRAM-MD5" then some (Auth.cramMD5 username password)
        else if strContains auths "LOGIN" && !strContains auths "PLAIN" then
          some (Auth.login username password host)
        else some (Auth.plain "" username password host)
      else none
    else none

/-- Modelled from the spec: "prefer CRAM-MD5 if advertised, else LOGIN if
advertised and PLAIN is not, else PLAIN". -/
def specAuthSelection (username password host : String) (auths : String) : Auth :=
  if strContains auths "CRAM-MD5" then Auth.cramMD5 username password
  else if strContains auths "LOGIN" && !strContains auths "PLAIN" then
    Auth.login username password host
  else Auth.plain "" username password host

/-- **C7** — with credentials configured, no explicit auth strategy, and
the AUTH extension advertised, `Dial` selects exactly the mechanism the
spec describes: CRAM-MD5 if advertised, else LOGIN when LOGIN is
advertised and PLAIN is not, else PLAIN. -/
theorem c7_auth_selection (username password host auths : String)
    (hc : username ≠ "") :
    dialSelectAuth none username password host true auths =
      some (specAuthSelection username password host auths) := by
  unfold dialSelectAuth specAuthSelection
  rw [if_pos hc, if_pos rfl]
  by_cases h1 : strContains auths "CRAM-MD5" = true
  · simp [h1]
  · by_cases h2 : (strContains auths "LOGIN" && !strContains auths "PLAIN") = true
    · simp [h1, h2]
    · simp [h1, h2]

/-- Closed instance of `c7_auth_selection`: a server advertising
`"LOGIN PLAIN"` yields PLAIN (LOGIN loses because PLAIN is advertised). -/
theorem c7_auth_selection_witness :
    dialSelectAuth none "user" "pwd" "smtp.example.com" true "LOGIN PLAIN" =
      some (Auth.plain "" "user" "pwd" "smtp.example.com") ∧
    specAuthSelection "user" "pwd" "smtp.example.com" "LOGIN PLAIN" =
      Auth.plain "" "user" "pwd" "smtp.example.com" := by
  have h := c7_auth_selection "user" "pwd" "smtp.example.com" "LOGIN PLAIN" (by decide)
  exact ⟨h.trans (by rfl), rfl⟩

/-! ## C3: stale-connection retry (smtp.go `smtpSender.Send`, `retryError`)

`Send` issues `MAIL FROM`; on error, when `retryError` holds (retry
enabled and the error is a timeout or `io.EOF`) it redials and — if the
redial succeeds — calls itself recursively on the fresh connection; if
the redial fails or the error is not retryable it returns the error.
The environment is modelled as a script: one entry per `MAIL FROM`
attempt, giving the attempt's outcome, whether a redial after a failure
would succeed, and the outcome of the rest of the transaction
(RCPT/DATA/close) when `MAIL FROM` succeeds. -/

structure SmtpErr where
  isTimeout : Bool
  isEOF : Bool
  id : Nat
deriving DecidableEq, Repr

/-- `smtpSender.retryError`: retry enabled and (net timeout or `io.EOF`). -/
def retryError (retryFailure : Bool) (e : SmtpErr) : Bool :=
  retryFailure && (e.isTimeout || e.isEOF)

structure MailAttempt where
  mailErr : Option SmtpErr
  dialOk : Bool
  restErr : Option SmtpErr
deriving DecidableEq, Repr

inductive SendOutcome where
  | ok
  | err (e : SmtpErr)
  | hang
deriving DecidableEq, Repr

/-- `smtpSender.Send` over an attempt script; returns the outcome and the
number of reconnect-and-retry cycles performed.  `hang` marks a run that
exhausts the script while still retrying. -/
def smtpSend (retryFailure : Bool) : List MailAttempt → SendOutcome × Nat
  | [] => (SendOutcome.hang, 0)
  | a :: rest =>
    match a.mailErr with
    | none =>
      (match a.restErr with
        | none => SendOutcome.ok
        | some e => SendOutcome.err e, 0)
    | some e =>
      if retryError retryFailure e && a.dialOk then
        let r := smtpSend retryFailure rest
        (r.1, r.2 + 1)
      else (SendOutcome.err e, 0)

/-- Whether an attempt triggers the reconnect-and-retry path. -/
def retryStep (retryFailure : Bool) (a : MailAttempt) : Bool :=
  match a.mailErr with
  | some e => retryError retryFailure e && a.dialOk
  | none => false

/-- Outcome of a single attempt when it is not retried further. -/
def attemptOutcome (a : MailAttempt) : SendOutcome :=
  match a.mailErr with
  | none =>
    match a.restErr with
    | none => SendOutcome.ok
    | some e => SendOutcome.err e
  | some e => SendOutcome.err e

/-- **C3, counterexample** — retry enabled, `MAIL FROM` times out twice
and then succeeds: the code performs a *second* reconnect-and-retry
cycle and the send succeeds, where the claim demands that the second
consecutive failure propagate the error after exactly one cycle. -/
theorem c3_counterexample :
    smtpSend true
      [⟨some ⟨true, false, 0⟩, true, none⟩,
       ⟨some ⟨true, false, 1⟩, true, none⟩,
       ⟨none, true, none⟩] = (SendOutcome.ok, 2) ∧
    ¬ ((smtpSend true
      [⟨some ⟨true, false, 0⟩, true, none⟩,
       ⟨some ⟨true, false, 1⟩, true, none⟩,
       ⟨none, true, none⟩]).2 = 1) := by
  refine ⟨rfl, ?_⟩
  intro hc
  have h1 : (smtpSend true
      [⟨some ⟨true, false, 0⟩, true, none⟩,
       ⟨some ⟨true, false, 1⟩, true, none⟩,
       ⟨none, true, none⟩]).2 = 2 := rfl
  rw [h1] at hc
  exact absurd hc (by omega)

/-- **C3, amended** — the reconnect-and-retry cycle is *unbounded*, not
single-shot: every consecutive `MAIL FROM` failure that is
timeout-class/EOF with retry enabled and a successful redial triggers a
further cycle; the run ends at the first attempt that does not (success,
non-retryable error, retry disabled, or failed redial), returning that
attempt's outcome, after exactly as many cycles as there were retried
failures before it. -/
theorem c3_amended (retryFailure : Bool) (s : List MailAttempt) (k : Nat)
    (hk : k < s.length)
    (hpre : ∀ i, (hi : i < k) → retryStep retryFailure (s.get ⟨i, by omega⟩) = true)
    (hstop : retryStep retryFailure (s.get ⟨k, hk⟩) = false) :
    smtpSend retryFailure s = (attemptOutcome (s.get ⟨k, hk⟩), k) := by
  induction k generalizing s with
  | zero =>
    cases s with
    | nil => simp at hk
    | cons a rest =>
      have hstop' : retryStep retryFailure a = false := hstop
      unfold retryStep at hstop'
      cases hma : a.mailErr with
      | none => simp [smtpSend, attemptOutcome, hma]
      | some e =>
        rw [hma] at hstop'
        have hb : (retryError retryFailure e && a.dialOk) = false := hstop'
        simp [smtpSend, attemptOutcome, hma, hb]
  | succ k ih =>
    cases s with
    | nil => simp at hk
    | cons a rest =>
      have h0 : retryStep retryFailure a = true := hpre 0 (by omega)
      unfold retryStep at h0
      cases hma : a.mailErr with
      | none => rw [hma] at h0; simp at h0
      | some e =>
        rw [hma] at h0
        have hb : (retryError retryFailure e && a.dialOk) = true := h0
        have hk' : k < rest.length := by
          simp at hk
          omega
        have hrec := ih rest hk' (fun i hi => hpre (i + 1) (by omega)) hstop
        simp [smtpSend, hma, hb, hrec]

/-- Closed instance of `c3_amended`: one retried timeout, then a
non-retryable protocol error: the error propagates after one cycle. -/
theorem c3_amended_witness :
    smtpSend true
      [⟨some ⟨true, false, 0⟩, true, none⟩,
       ⟨some ⟨false, false, 1⟩, true, none⟩] =
      (SendOutcome.err ⟨false, false, 1⟩, 1) := by
  have h := c3_amended true
    [⟨some ⟨true, false, 0⟩, true, none⟩,
     ⟨some ⟨false, false, 1⟩, true, none⟩] 1
    (by decide)
    (fun i hi => by
      interval_cases i
      · rfl)
    rfl
  exact h.trans (by rfl)

/-! ## C5: base64 line-folding writer (writeto.go `base64LineWriter.Write`)

The writer carries a running column count `lineLen`; while the pending
chunk would exceed 76 columns it flushes `76 - lineLen` bytes, emits
`\r\n`, and resets the column.  Output is modelled as a token stream
distinguishing passed-through input bytes from the inserted CRLF pairs. -/

inductive B64Tok where
  | dat (b : Nat)
  | crlf
deriving DecidableEq, Repr

/-- Fuelled form of `base64LineWriter.Write` (one fuel unit per loop
iteration; the fuel is always sufficient for the writer's states, see
`b64WriteF_congr`). -/
def b64WriteF : Nat → Nat → List Nat → List B64Tok × Nat
  | 0, lineLen, _ => ([], lineLen)
  | fuel + 1, lineLen, p =>
    if p.length + lineLen > 76 then
      let k := 76 - lineLen
      let r := b64WriteF fuel 0 (p.drop k)
      ((p.take k).map B64Tok.dat ++ B64Tok.crlf :: r.1, r.2)
    else
      (p.map B64Tok.dat, lineLen + p.length)

theorem b64WriteF_congr (f1 : Nat) : ∀ (f2 lineLen : Nat) (p : List Nat),
    lineLen ≤ 76 → p.length + lineLen + 2 ≤ f1 → p.length + lineLen + 2 ≤ f2 →
    b64WriteF f1 lineLen p = b64WriteF f2 lineLen p := by
  induction f1 with
  | zero => intro f2 l p _ h1 _; omega
  | succ f1 ih =>
    intro f2 l p hl h1 h2
    cases f2 with
    | zero => omega
    | succ f2 =>
      simp only [b64WriteF]
      by_cases h : p.length + l > 76
      · simp only [h, if_pos]
        have hd : (p.drop (76 - l)).length = p.length - (76 - l) := by
          simp
        rw [ih f2 0 (p.drop (76 - l)) (by omega) (by omega) (by omega)]
      · simp only [h, if_neg, not_false_iff]

/-- `base64LineWriter.Write`: the loop
`for len(p)+lineLen > 76 { write p[:76-lineLen]; write "\r\n"; … }`
followed by writing the remainder; returns the emitted tokens and the new
`lineLen`. -/
def b64Write (lineLen : Nat) (p : List Nat) : List B64Tok × Nat :=
  b64WriteF (p.length + lineLen + 2) lineLen p

/-- One-step unfolding of `b64Write` on the states the writer reaches
(`lineLen ≤ 76`). -/
theorem b64Write_eq (lineLen : Nat) (p : List Nat) (hl : lineLen ≤ 76) :
    b64Write lineLen p =
      if p.length + lineLen > 76 then
        ((p.take (76 - lineLen)).map B64Tok.dat ++
          B64Tok.crlf :: (b64Write 0 (p.drop (76 - lineLen))).1,
         (b64Write 0 (p.drop (76 - lineLen))).2)
      else
        (p.map B64Tok.dat, lineLen + p.length) := by
  unfold b64Write
  rw [show p.length + lineLen + 2 = (p.length + lineLen + 1) + 1 from rfl]
  conv_lhs => rw [b64WriteF]
  by_cases h : p.length + lineLen > 76
  · simp only [h, if_pos]
    have hd : (p.drop (76 - lineLen)).length = p.length - (76 - lineLen) := by
      simp
    rw [b64WriteF_congr (p.length + lineLen + 1) ((p.drop (76 - lineLen)).length + 0 + 2)
      0 (p.drop (76 - lineLen)) (by omega) (by omega) (by omega)]
  · simp only [h, if_neg, not_false_iff]

/-- Feeding a sequence of chunks through one writer starting at column 0. -/
def b64Run (chunks : List (List Nat)) : List B64Tok × Nat :=
  chunks.foldl (fun acc c => ((acc.1 ++ (b64Write acc.2 c).1, (b64Write acc.2 c).2))) ([], 0)

/-- The input bytes passed through (deleting the inserted CRLF pairs). -/
def datOf (toks : List B64Tok) : List Nat :=
  toks.filterMap fun t =>
    match t with
    | B64Tok.dat b => some b
    | B64Tok.crlf => none

/-- Raw bytes of the token stream (CRLF pairs rendered as 13, 10). -/
def render (toks : List B64Tok) : List Nat :=
  toks.flatMap fun t =>
    match t with
    | B64Tok.dat b => [b]
    | B64Tok.crlf => [13, 10]

/-- Split a byte list at each (leftmost-first) occurrence of CRLF. -/
def splitCRLF : List Nat → List (List Nat)
  | [] => [[]]
  | [b] => [[b]]
  | b :: c :: rest =>
    if b = 13 ∧ c = 10 then [] :: splitCRLF rest
    else
      match splitCRLF (c :: rest) with
      | [] => [[b]]
      | line :: lines => (b :: line) :: lines

/-- `Good l₀ l₁ toks`: reading the tokens starting at column `l₀`, every
byte lands in a column < 76 before being written (so every run between
CRLFs fits in 76 columns), every CRLF is emitted at a column ≤ 76, and
the stream ends at column `l₁`. -/
inductive Good : Nat → Nat → List B64Tok → Prop where
  | nil (l : Nat) : l ≤ 76 → Good l l []
  | dat (l l₁ b : Nat) (toks : List B64Tok) :
      l + 1 ≤ 76 → Good (l + 1) l₁ toks → Good l l₁ (B64Tok.dat b :: toks)
  | crlf (l l₁ : Nat) (toks : List B64Tok) :
      l ≤ 76 → Good 0 l₁ toks → Good l l₁ (B64Tok.crlf :: toks)

theorem Good.append {l₀ l₁ l₂ : Nat} {t₁ t₂ : List B64Tok}
    (h₁ : Good l₀ l₁ t₁) (h₂ : Good l₁ l₂ t₂) : Good l₀ l₂ (t₁ ++ t₂) := by
  induction h₁ with
  | nil l hl => simpa using h₂
  | dat l l₁ b toks hle _ ih => exact Good.dat l l₂ b _ hle (ih h₂)
  | crlf l l₁ toks hle _ ih => exact Good.crlf l l₂ _ hle (ih h₂)

theorem Good.right_le {l₀ l₁ : Nat} {toks : List B64Tok} (h : Good l₀ l₁ toks) :
    l₁ ≤ 76 := by
  induction h with
  | nil l hl => exact hl
  | dat _ _ _ _ _ _ ih => exact ih
  | crlf _ _ _ _ _ ih => exact ih

theorem Good.datRun (p : List Nat) : ∀ l : Nat, l + p.length ≤ 76 →
    Good l (l + p.length) (p.map B64Tok.dat) := by
  induction p with
  | nil => intro l hl; simpa using Good.nil l (by omega)
  | cons b rest ih =>
    intro l hl
    simp only [List.length_cons] at hl
    simp only [List.map_cons, List.length_cons]
    have h1 : l + 1 ≤ 76 := by omega
    have h2 := ih (l + 1) (by omega)
    rw [show l + 1 + rest.length = l + (rest.length + 1) from by omega] at h2
    exact Good.dat l _ b _ h1 h2

theorem datOf_append (a b : List B64Tok) : datOf (a ++ b) = datOf a ++ datOf b := by
  simp [datOf]

theorem datOf_crlf_cons (t : List B64Tok) : datOf (B64Tok.crlf :: t) = datOf t := by
  simp [datOf]

theorem datOf_map_dat (xs : List Nat) : datOf (xs.map B64Tok.dat) = xs := by
  induction xs with
  | nil => rfl
  | cons b rest ih => simpa [datOf] using ih

theorem b64Write_good (l : Nat) (p : List Nat) (hl : l ≤ 76) :
    Good l (b64Write l p).2 (b64Write l p).1 := by
  rw [b64Write_eq l p hl]
  by_cases h : p.length + l > 76
  · simp only [h, if_pos]
    have hlen : (p.take (76 - l)).length = 76 - l := by
      simp only [List.length_take]
      omega
    have h1 : Good l 76 ((p.take (76 - l)).map B64Tok.dat) := by
      have := Good.datRun (p.take (76 - l)) l (by rw [hlen]; omega)
      rw [hlen] at this
      convert this using 2
      omega
    have h2 := b64Write_good 0 (p.drop (76 - l)) (by omega)
    exact Good.append h1 (Good.crlf 76 _ _ (by omega) h2)
  · simp only [h, if_neg, not_false_iff]
    exact Good.datRun p l (by omega)
termination_by p.length + l
decreasing_by
  simp only [List.length_drop]
  omega

theorem b64Write_dat (l : Nat) (p : List Nat) (hl : l ≤ 76) :
    datOf (b64Write l p).1 = p := by
  rw [b64Write_eq l p hl]
  by_cases h : p.length + l > 76
  · simp only [h, if_pos]
    have hrec := b64Write_dat 0 (p.drop (76 - l)) (by omega)
    rw [datOf_append, datOf_map_dat, datOf_crlf_cons, hrec]
    exact List.take_append_drop _ p
  · simp only [h, if_neg, not_false_iff]
    exact datOf_map_dat p
termination_by p.length + l
decreasing_by
  simp only [List.length_drop]
  omega

theorem b64Run_good (chunks : List (List Nat)) :
    Good 0 (b64Run chunks).2 (b64Run chunks).1 ∧
    datOf (b64Run chunks).1 = chunks.flatten := by
  suffices hgen : ∀ (toks : List B64Tok) (l : Nat), Good 0 l toks →
      Good 0 (chunks.foldl (fun acc c =>
        ((acc.1 ++ (b64Write acc.2 c).1, (b64Write acc.2 c).2))) (toks, l)).2
        (chunks.foldl (fun acc c =>
        ((acc.1 ++ (b64Write acc.2 c).1, (b64Write acc.2 c).2))) (toks, l)).1 ∧
      datOf (chunks.foldl (fun acc c =>
        ((acc.1 ++ (b64Write acc.2 c).1, (b64Write acc.2 c).2))) (toks, l)).1 =
        datOf toks ++ chunks.flatten by
    have := hgen [] 0 (Good.nil 0 (by omega))
    simpa [b64Run, datOf] using this
  induction chunks with
  | nil => intro toks l hg; simpa [datOf] using hg
  | cons c rest ih =>
    intro toks l hg
    simp only [List.foldl_cons, List.flatten_cons]
    have hw := b64Write_good l c hg.right_le
    have := ih (toks ++ (b64Write l c).1) (b64Write l c).2 (Good.append hg hw)
    refine ⟨this.1, ?_⟩
    rw [this.2, datOf_append, b64Write_dat l c hg.right_le]
    simp

/-- Byte lists made of blocks of length ≤ 76 joined by explicit CRLFs. -/
inductive Blocked : List Nat → Prop where
  | base (L : List Nat) : L.length ≤ 76 → Blocked L
  | cons (B L : List Nat) : B.length ≤ 76 → Blocked L → Blocked (B ++ 13 :: 10 :: L)

theorem good_render_blocked {l₀ l₁ : Nat} {toks : List B64Tok}
    (h : Good l₀ l₁ toks) :
    ∀ pre : List Nat, pre.length = l₀ → Blocked (pre ++ render toks) := by
  induction h with
  | nil l hl =>
    intro pre hp
    simpa [render] using Blocked.base pre (by omega)
  | dat l l₁ b toks hle _ ih =>
    intro pre hp
    have := ih (pre ++ [b]) (by simp [hp])
    simpa [render, List.append_assoc] using this
  | crlf l l₁ toks hle _ ih =>
    intro pre hp
    have hb := ih [] rfl
    simp only [List.nil_append] at hb
    simpa [render] using Blocked.cons pre (render toks) (by omega) hb

theorem splitCRLF_ne_nil (L : List Nat) : splitCRLF L ≠ [] := by
  induction L using splitCRLF.induct with
  | case1 => simp [splitCRLF]
  | case2 b => simp [splitCRLF]
  | case3 b c rest hbc ih => simp [splitCRLF, hbc]
  | case4 b c rest hbc heq ih => exact absurd heq ih
  | case5 b c rest hbc line lines heq ih =>
    rw [splitCRLF.eq_def]
    simp only [hbc, if_false, heq]
    simp

theorem splitCRLF_line_le (L : List Nat) :
    ∀ line ∈ splitCRLF L, line.length ≤ L.length := by
  induction L using splitCRLF.induct with
  | case1 => intro line hline; simp [splitCRLF] at hline; simp [hline]
  | case2 b => intro line hline; simp [splitCRLF] at hline; simp [hline]
  | case3 b c rest hbc ih =>
    intro line hline
    simp only [splitCRLF, if_pos hbc, List.mem_cons] at hline
    rcases hline with rfl | hline
    · simp
    · have := ih line hline
      simp only [List.length_cons]
      omega
  | case4 b c rest hbc heq ih => exact absurd heq (splitCRLF_ne_nil _)
  | case5 b c rest hbc l0 ls heq ih =>
    intro line hline
    rw [splitCRLF.eq_def] at hline
    simp only [hbc, if_false, heq] at hline
    simp only [List.mem_cons] at hline
    rcases hline with rfl | hline
    · have := ih l0 (by rw [heq]; exact List.mem_cons_self _ _)
      simp only [List.length_cons] at this ⊢
      omega
    · have := ih line (by rw [heq]; exact List.mem_cons_of_mem _ hline)
      simp only [List.length_cons] at this ⊢
      omega

/-- Splitting `B ++ CRLF ++ L'` yields a nonempty block of lines each no
longer than `B`, followed by the lines of `L'`. -/
theorem splitCRLF_block (B : List Nat) :
    ∀ L' : List Nat, ∃ front : List (List Nat), front ≠ [] ∧
      splitCRLF (B ++ 13 :: 10 :: L') = front ++ splitCRLF L' ∧
      ∀ line ∈ front, line.length ≤ B.length := by
  induction B using splitCRLF.induct with
  | case1 =>
    intro L'
    refine ⟨[[]], by simp, ?_, by simp⟩
    simp [splitCRLF]
  | case2 b =>
    intro L'
    refine ⟨[[b]], by simp, ?_, by simp⟩
    rw [show [b] ++ 13 :: 10 :: L' = b :: 13 :: 10 :: L' from rfl, splitCRLF.eq_def]
    simp only [show ¬(b = 13 ∧ (13 : Nat) = 10) from by simp, if_false]
    rw [show (13 : Nat) :: 10 :: L' = [] ++ 13 :: 10 :: L' from rfl,
      show splitCRLF ([] ++ 13 :: 10 :: L') = [] :: splitCRLF L' from by simp [splitCRLF]]
    rfl
  | case3 b c rest hbc ih =>
    intro L'
    obtain ⟨front, hne, heq2, hbound⟩ := ih L'
    refine ⟨[] :: front, by simp, ?_, ?_⟩
    · obtain ⟨rfl, rfl⟩ := hbc
      rw [show (13 :: 10 :: rest) ++ 13 :: 10 :: L' = 13 :: 10 :: (rest ++ 13 :: 10 :: L')
        from by simp]
      rw [show splitCRLF (13 :: 10 :: (rest ++ 13 :: 10 :: L')) =
        [] :: splitCRLF (rest ++ 13 :: 10 :: L') from by simp [splitCRLF]]
      rw [heq2]
      simp
    · intro line hline
      rcases List.mem_cons.1 hline with rfl | hl
      · simp
      · have := hbound line hl
        simp only [List.length_cons]
        omega
  | case4 b c rest hbc heq ih => exact absurd heq (splitCRLF_ne_nil _)
  | case5 b c rest hbc l00 ls0 heq0 ih =>
    intro L'
    obtain ⟨front, hne, heq2, hbound⟩ := ih L'
    cases front with
    | nil => exact absurd rfl hne
    | cons f0 frest =>
      refine ⟨(b :: f0) :: frest, by simp, ?_, ?_⟩
      · rw [show (b :: c :: rest) ++ 13 :: 10 :: L' = b :: c :: (rest ++ 13 :: 10 :: L')
          from by simp, splitCRLF.eq_def]
        simp only [hbc, if_false]
        rw [show c :: (rest ++ 13 :: 10 :: L') = (c :: rest) ++ 13 :: 10 :: L' from by simp,
          heq2]
        simp
      · intro line hline
        rcases List.mem_cons.1 hline with rfl | hl
        · have := hbound f0 (List.mem_cons_self _ _)
          simp only [List.length_cons] at this ⊢
          omega
        · have := hbound line (List.mem_cons_of_mem _ hl)
          simp only [List.length_cons] at this ⊢
          omega

theorem blocked_split {L : List Nat} (h : Blocked L) :
    ∀ line ∈ splitCRLF L, line.length ≤ 76 := by
  induction h with
  | base L hL =>
    intro line hline
    have := splitCRLF_line_le L line hline
    omega
  | cons B L hB _ ih =>
    intro line hline
    obtain ⟨front, _, heq, hbound⟩ := splitCRLF_block B L
    rw [heq] at hline
    rcases List.mem_append.1 hline with hl | hl
    · have := hbound line hl
      omega
    · exact ih line hl

/-- **C5** — feeding any byte sequence, in any partition into successive
write calls, through the base64 line-folding writer starting at column 0:
deleting the inserted CRLF pairs from the output yields exactly the
input bytes, and every output line delimited by CRLF has length at
most 76. -/
theorem c5_base64_line_folding (chunks : List (List Nat)) :
    datOf (b64Run chunks).1 = chunks.flatten ∧
    ∀ line ∈ splitCRLF (render (b64Run chunks).1), line.length ≤ 76 := by
  obtain ⟨hgood, hdat⟩ := b64Run_good chunks
  refine ⟨hdat, ?_⟩
  have hblocked := good_render_blocked hgood [] rfl
  simpa using blocked_split (by simpa using hblocked)

/-- Closed instance of `c5_base64_line_folding`: 100 input bytes in two
chunks produce a 76-byte first line, and stripping the CRLF restores the
input. -/
theorem c5_base64_line_folding_witness :
    datOf (b64Run [List.replicate 50 65, List.replicate 50 66]).1 =
      List.replicate 50 65 ++ List.replicate 50 66 ∧
    (List.replicate 50 65 ++ List.replicate 26 66) ∈
      splitCRLF (render (b64Run [List.replicate 50 65, List.replicate 50 66]).1) ∧
    ((List.replicate 50 65 ++ List.replicate 26 66) : List Nat).length ≤ 76 := by
  have h := c5_base64_line_folding [List.replicate 50 65, List.replicate 50 66]
  have hmem : (List.replicate 50 65 ++ List.replicate 26 66) ∈
      splitCRLF (render (b64Run [List.replicate 50 65, List.replicate 50 66]).1) := by
    decide
  exact ⟨by rw [h.1]; rfl, hmem, h.2 _ hmem⟩

/-! ## C4 and C10: quoted-printable line-folding writer
(`qpLineWriter.Write`, gomail v1, src/unnamed/part_004)

The writer loops over the chunk `p` with carried column `lineLen`:
  * `len(p) < 76-lineLen` → write everything, add to the column;
  * otherwise it slices `p[:76-lineLen+2]` — an out-of-range bound when
    `len(p) < 76-lineLen+2` (Go panics whenever the slice has no spare
    capacity, and reads beyond the logical input otherwise); this is
    modelled as `panic`;
  * a `\n` found at index `i` within the slice, accepted when
    `i ≠ 76-lineLen+1` or `p[i-1] = '\r'`, passes the line through
    unbroken and resets the column;
  * otherwise the cut point backs up one or two bytes when the byte at
    `76-lineLen-2` or `76-lineLen-1` is `'='`, the cut bytes are written,
    and the soft break `=\r\n` is inserted.
Output is a token stream of passed-through bytes and inserted soft
breaks. -/

inductive QpTok where
  | dat (b : Nat)
  | brk
deriving DecidableEq, Repr

/-- Result of a write: inserted-break-tagged output and new column,
`panic` for the out-of-range slice, `fuelOut` only below the fuel bound
(never reached from `qpWrite`). -/
inductive QpRes where
  | out (toks : List QpTok) (lineLen : Nat)
  | panic
  | fuelOut
deriving DecidableEq, Repr

/-- `bytes.IndexAny(s, "\n")`: index of the first newline byte. -/
def indexOfNl : List Nat → Option Nat
  | [] => none
  | b :: rest => if b = 10 then some 0 else (indexOfNl rest).map (fun i => i + 1)

theorem indexOfNl_lt (xs : List Nat) : ∀ iv : Nat, indexOfNl xs = some iv →
    iv < xs.length := by
  induction xs with
  | nil => intro iv h; exact Option.noConfusion h
  | cons b rest ih =>
    intro iv h
    unfold indexOfNl at h
    by_cases hb : b = 10
    · rw [if_pos hb] at h
      cases h
      simp
    · rw [if_neg hb] at h
      cases hr : indexOfNl rest with
      | none => rw [hr] at h; exact Option.noConfusion h
      | some j =>
        rw [hr] at h
        rw [show Option.map (fun i => i + 1) (some j) = some (j + 1) from rfl] at h
        cases h
        have := ih j hr
        simp only [List.length_cons]
        omega

/-- Condition driving the newline branch of `qpLineWriter.Write`:
`i := bytes.IndexAny(p[:76-l+2], "\n")`, accepted when
`i != -1 && (i != 76-l+1 || p[i-1] == '\r')`. -/
def qpNlIndex (l : Nat) (p : List Nat) : Option Nat :=
  match indexOfNl (p.take ((76 - l) + 2)) with
  | some iv => if iv ≠ (76 - l) + 1 ∨ p.getD (iv - 1) 0 = 13 then some iv else none
  | none => none

/-- The cut point of the soft-break branch: back up two bytes when
`p[76-l-2] == '='` (guarded by `76-l-2 >= 0`), one byte when
`p[76-l-1] == '='`, else cut at `76-l`. -/
def qpToWrite (l : Nat) (p : List Nat) : Nat :=
  if 2 ≤ 76 - l ∧ p.getD (76 - l - 2) 0 = 61 then 76 - l - 2
  else if p.getD (76 - l - 1) 0 = 61 then 76 - l - 1
  else 76 - l

theorem qpToWrite_ge (l : Nat) (p : List Nat) (hl : l ≤ 75) :
    74 ≤ qpToWrite l p + l := by
  unfold qpToWrite
  by_cases hc1 : 2 ≤ 76 - l ∧ p.getD (76 - l - 2) 0 = 61
  · rw [if_pos hc1]
    omega
  · rw [if_neg hc1]
    by_cases hc2 : p.getD (76 - l - 1) 0 = 61
    · rw [if_pos hc2]
      omega
    · rw [if_neg hc2]
      omega

theorem qpToWrite_le (l : Nat) (p : List Nat) : qpToWrite l p ≤ 76 - l := by
  unfold qpToWrite
  by_cases hc1 : 2 ≤ 76 - l ∧ p.getD (76 - l - 2) 0 = 61
  · rw [if_pos hc1]
    omega
  · rw [if_neg hc1]
    by_cases hc2 : p.getD (76 - l - 1) 0 = 61
    · rw [if_pos hc2]
      omega
    · rw [if_neg hc2]

/-- Fuelled `qpLineWriter.Write` (one fuel unit per loop iteration). -/
def qpWriteF : Nat → Nat → List Nat → QpRes
  | 0, _, _ => QpRes.fuelOut
  | fuel + 1, l, p =>
    if p = [] then QpRes.out [] l
    else if p.length < 76 - l then QpRes.out (p.map QpTok.dat) (l + p.length)
    else if p.length < (76 - l) + 2 then QpRes.panic
    else
      match qpNlIndex l p with
      | some iv =>
        match qpWriteF fuel 0 (p.drop (iv + 1)) with
        | QpRes.out t l' => QpRes.out ((p.take (iv + 1)).map QpTok.dat ++ t) l'
        | r => r
      | none =>
        match qpWriteF fuel 0 (p.drop (qpToWrite l p)) with
        | QpRes.out t l' =>
          QpRes.out ((p.take (qpToWrite l p)).map QpTok.dat ++ QpTok.brk :: t) l'
        | r => r

theorem qpWriteF_congr (f1 : Nat) : ∀ (f2 l : Nat) (p : List Nat),
    l ≤ 75 → p.length + l + 2 ≤ f1 → p.length + l + 2 ≤ f2 →
    qpWriteF f1 l p = qpWriteF f2 l p := by
  induction f1 with
  | zero => intro f2 l p _ h1 _; omega
  | succ f1 ih =>
    intro f2 l p hl h1 h2
    cases f2 with
    | zero => omega
    | succ f2 =>
      simp only [qpWriteF]
      by_cases hnil : p = []
      · simp only [hnil, if_pos]
      · simp only [hnil, if_neg, not_false_iff]
        by_cases hsmall : p.length < 76 - l
        · simp only [hsmall, if_pos]
        · simp only [hsmall, if_neg, not_false_iff]
          by_cases hpanic : p.length < (76 - l) + 2
          · simp only [hpanic, if_pos]
          · simp only [hpanic, if_neg, not_false_iff]
            have h74 := qpToWrite_ge l p hl
            cases hfi : qpNlIndex l p with
            | none =>
              simp only []
              rw [ih f2 0 (p.drop (qpToWrite l p)) (by omega)
                (by simp only [List.length_drop]; omega)
                (by simp only [List.length_drop]; omega)]
            | some iv =>
              simp only []
              rw [ih f2 0 (p.drop (iv + 1)) (by omega)
                (by simp only [List.length_drop]; omega)
                (by simp only [List.length_drop]; omega)]

/-- `qpLineWriter.Write` with always-sufficient fuel. -/
def qpWrite (l : Nat) (p : List Nat) : QpRes :=
  qpWriteF (p.length + l + 2) l p

/-- Break positions of a token stream: each `brk` is reported as the
number of data bytes written before it, starting from `k`. -/
def breaksAt : Nat → List QpTok → List Nat
  | _, [] => []
  | k, QpTok.dat _ :: t => breaksAt (k + 1) t
  | k, QpTok.brk :: t => k :: breaksAt k t

/-- Break positions of a token stream (soft break after byte `m` of the
stream's data). -/
def breaks (t : List QpTok) : List Nat := breaksAt 0 t

theorem breaksAt_map_dat (xs : List Nat) : ∀ (k : Nat) (t : List QpTok),
    breaksAt k (xs.map QpTok.dat ++ t) = breaksAt (k + xs.length) t := by
  induction xs with
  | nil => intro k t; simp [breaksAt]
  | cons b rest ih =>
    intro k t
    show breaksAt (k + 1) (rest.map QpTok.dat ++ t) = breaksAt (k + (rest.length + 1)) t
    rw [ih (k + 1) t]
    congr 1
    omega

theorem breaksAt_shift (t : List QpTok) : ∀ k : Nat,
    breaksAt k t = (breaks t).map (fun x => k + x) := by
  induction t with
  | nil => intro k; simp [breaks, breaksAt]
  | cons a rest ih =>
    intro k
    cases a with
    | dat b =>
      show breaksAt (k + 1) rest = ((breaksAt (0 + 1) rest).map fun x => k + x)
      rw [ih (k + 1), ih (0 + 1), List.map_map]
      refine List.map_congr_left ?_
      intro x _
      simp only [Function.comp_apply]
      omega
    | brk =>
      show k :: breaksAt k rest = ((0 :: breaksAt 0 rest).map fun x => k + x)
      rw [ih k]
      simp [breaks]

theorem breaks_map_dat (xs : List Nat) : breaks (xs.map QpTok.dat) = [] := by
  have h := breaksAt_map_dat xs 0 []
  simpa [breaks, breaksAt] using h

theorem getD_drop (p : List Nat) : ∀ (n i d : Nat),
    (p.drop n).getD i d = p.getD (n + i) d := by
  induction p with
  | nil => intro n i d; simp
  | cons b rest ih =>
    intro n i d
    cases n with
    | zero => simp
    | succ n =>
      show (rest.drop n).getD i d = (b :: rest).getD (n + 1 + i) d
      rw [ih n i d]
      rw [show n + 1 + i = (n + i) + 1 from by omega]
      rfl

/-- Every soft break inserted by a run that starts at column 0 lies at
least 74 data bytes into the run. -/
theorem qpWriteF_breaks_ge (fuel : Nat) : ∀ (p : List Nat) (toks : List QpTok) (l' : Nat),
    qpWriteF fuel 0 p = QpRes.out toks l' → ∀ m ∈ breaks toks, 74 ≤ m := by
  induction fuel with
  | zero => intro p toks l' hout; exact QpRes.noConfusion hout
  | succ f ih =>
    intro p toks l' hout
    simp only [qpWriteF] at hout
    by_cases hnil : p = []
    · rw [if_pos hnil] at hout
      cases hout
      intro m hm
      simp [breaks, breaksAt] at hm
    · rw [if_neg hnil] at hout
      by_cases hsmall : p.length < 76 - 0
      · rw [if_pos hsmall] at hout
        cases hout
        intro m hm
        rw [breaks_map_dat] at hm
        exact absurd hm (List.not_mem_nil m)
      · rw [if_neg hsmall] at hout
        by_cases hpanic : p.length < (76 - 0) + 2
        · rw [if_pos hpanic] at hout
          exact QpRes.noConfusion hout
        · rw [if_neg hpanic] at hout
          cases hfi : qpNlIndex 0 p with
          | some iv =>
            rw [hfi] at hout
            simp only [] at hout
            cases hrec : qpWriteF f 0 (p.drop (iv + 1)) with
            | out t l2 =>
              rw [hrec] at hout
              cases hout
              intro m hm
              rw [breaks, breaksAt_map_dat, breaksAt_shift] at hm
              rcases List.mem_map.1 hm with ⟨x, hx, rfl⟩
              have := ih (p.drop (iv + 1)) t _ hrec x hx
              omega
            | panic =>
              rw [hrec] at hout
              exact QpRes.noConfusion hout
            | fuelOut =>
              rw [hrec] at hout
              exact QpRes.noConfusion hout
          | none =>
            rw [hfi] at hout
            simp only [] at hout
            cases hrec : qpWriteF f 0 (p.drop (qpToWrite 0 p)) with
            | out t l2 =>
              rw [hrec] at hout
              cases hout
              intro m hm
              have h74 := qpToWrite_ge 0 p (by omega)
              have hle := qpToWrite_le 0 p
              have hlen : (p.take (qpToWrite 0 p)).length = qpToWrite 0 p := by
                simp only [List.length_take]
                omega
              rw [breaks, breaksAt_map_dat, hlen] at hm
              show 74 ≤ m
              rcases List.mem_cons.1 (by
                  simpa [breaksAt] using hm : m ∈ (0 + qpToWrite 0 p) ::
                    breaksAt (0 + qpToWrite 0 p) t) with rfl | hm2
              · omega
              · rw [breaksAt_shift] at hm2
                rcases List.mem_map.1 hm2 with ⟨x, _, rfl⟩
                omega
            | panic =>
              rw [hrec] at hout
              exact QpRes.noConfusion hout
            | fuelOut =>
              rw [hrec] at hout
              exact QpRes.noConfusion hout

/-- Hex digit bytes (0-9, A-F, a-f); the escape byte `'='` (61) is not one. -/
def isHex (b : Nat) : Bool :=
  (48 ≤ b && b ≤ 57) || (65 ≤ b && b ≤ 70) || (97 ≤ b && b ≤ 102)

theorem qpNlIndex_lt (l : Nat) (p : List Nat) (iv : Nat)
    (h : qpNlIndex l p = some iv) : iv < min ((76 - l) + 2) p.length := by
  unfold qpNlIndex at h
  cases hfi : indexOfNl (p.take ((76 - l) + 2)) with
  | none => rw [hfi] at h; exact Option.noConfusion h
  | some iv0 =>
    rw [hfi] at h
    have h2 : (if iv0 ≠ (76 - l) + 1 ∨ p.getD (iv0 - 1) 0 = 13
        then some iv0 else none) = some iv := h
    have hlt := indexOfNl_lt _ iv0 hfi
    rw [List.length_take] at hlt
    by_cases hacc : iv0 ≠ (76 - l) + 1 ∨ p.getD (iv0 - 1) 0 = 13
    · rw [if_pos hacc] at h2
      cases h2
      exact hlt
    · rw [if_neg hacc] at h2
      exact Option.noConfusion h2

/-- No soft break inserted by a single `qpLineWriter.Write` call (carried
column ≤ 75) falls inside a `=XX` escape that lies within the call's
chunk: the positions right after the `'='` and right after its first hex
digit are never break positions. -/
theorem qpWriteF_no_split (fuel : Nat) :
    ∀ (l : Nat) (p : List Nat) (toks : List QpTok) (l' : Nat),
    l ≤ 75 → qpWriteF fuel l p = QpRes.out toks l' →
    ∀ j : Nat, j + 2 < p.length → p.getD j 0 = 61 →
      isHex (p.getD (j + 1) 0) = true → isHex (p.getD (j + 2) 0) = true →
      j + 1 ∉ breaks toks ∧ j + 2 ∉ breaks toks := by
  induction fuel with
  | zero =>
    intro l p toks l' _ hout
    exact QpRes.noConfusion hout
  | succ f ih =>
    intro l p toks l' hl hout j hjlen hj hx1 hx2
    simp only [qpWriteF] at hout
    by_cases hnil : p = []
    · rw [hnil] at hjlen
      simp at hjlen
    · rw [if_neg hnil] at hout
      by_cases hsmall : p.length < 76 - l
      · rw [if_pos hsmall] at hout
        cases hout
        rw [breaks_map_dat]
        exact ⟨List.not_mem_nil _, List.not_mem_nil _⟩
      · rw [if_neg hsmall] at hout
        by_cases hpanic : p.length < (76 - l) + 2
        · rw [if_pos hpanic] at hout
          exact QpRes.noConfusion hout
        · rw [if_neg hpanic] at hout
          cases hfi : qpNlIndex l p with
          | some iv =>
            rw [hfi] at hout
            simp only [] at hout
            have hiv := qpNlIndex_lt l p iv hfi
            have hivle : iv + 1 ≤ p.length := by
              rcases Nat.lt_min.1 hiv with ⟨_, h2⟩
              omega
            cases hrec : qpWriteF f 0 (p.drop (iv + 1)) with
            | out t l2 =>
              rw [hrec] at hout
              cases hout
              have hlen : (p.take (iv + 1)).length = iv + 1 := by
                rw [List.length_take]
                omega
              have hbr : breaks ((p.take (iv + 1)).map QpTok.dat ++ t) =
                  (breaks t).map (fun x => 0 + (iv + 1) + x) := by
                rw [breaks, breaksAt_map_dat, hlen, breaksAt_shift]
              by_cases hcase : iv + 1 ≤ j
              · have hdrop := ih 0 (p.drop (iv + 1)) t _ (by omega) hrec (j - (iv + 1))
                  (by rw [List.length_drop]; omega)
                  (by rw [getD_drop, show (iv + 1) + (j - (iv + 1)) = j from by omega]
                      exact hj)
                  (by rw [getD_drop, show (iv + 1) + (j - (iv + 1) + 1) = j + 1 from by omega]
                      exact hx1)
                  (by rw [getD_drop, show (iv + 1) + (j - (iv + 1) + 2) = j + 2 from by omega]
                      exact hx2)
                constructor <;> intro hmem <;> rw [hbr] at hmem <;>
                  rcases List.mem_map.1 hmem with ⟨x, hx, hxe⟩
                · exact absurd (by rw [show j - (iv + 1) + 1 = x from by omega]; exact hx)
                    hdrop.1
                · exact absurd (by rw [show j - (iv + 1) + 2 = x from by omega]; exact hx)
                    hdrop.2
              · have hge := qpWriteF_breaks_ge f (p.drop (iv + 1)) t _ hrec
                constructor <;> intro hmem <;> rw [hbr] at hmem <;>
                  rcases List.mem_map.1 hmem with ⟨x, hx, hxe⟩ <;>
                    have := hge x hx <;> omega
            | panic =>
              rw [hrec] at hout
              exact QpRes.noConfusion hout
            | fuelOut =>
              rw [hrec] at hout
              exact QpRes.noConfusion hout
          | none =>
            rw [hfi] at hout
            simp only [] at hout
            cases hrec : qpWriteF f 0 (p.drop (qpToWrite l p)) with
            | out t l2 =>
              rw [hrec] at hout
              cases hout
              have hle := qpToWrite_le l p
              have hlen : (p.take (qpToWrite l p)).length = qpToWrite l p := by
                rw [List.length_take]
                omega
              have hbr : breaks ((p.take (qpToWrite l p)).map QpTok.dat ++ QpTok.brk :: t) =
                  (0 + qpToWrite l p) ::
                    (breaks t).map (fun x => 0 + qpToWrite l p + x) := by
                rw [breaks, breaksAt_map_dat, hlen]
                show (0 + qpToWrite l p) :: breaksAt (0 + qpToWrite l p) t = _
                rw [breaksAt_shift]
              by_cases hcase : qpToWrite l p ≤ j
              · have hdrop := ih 0 (p.drop (qpToWrite l p)) t _ (by omega) hrec
                  (j - qpToWrite l p)
                  (by rw [List.length_drop]; omega)
                  (by rw [getD_drop, show qpToWrite l p + (j - qpToWrite l p) = j
                        from by omega]
                      exact hj)
                  (by rw [getD_drop, show qpToWrite l p + (j - qpToWrite l p + 1) = j + 1
                        from by omega]
                      exact hx1)
                  (by rw [getD_drop, show qpToWrite l p + (j - qpToWrite l p + 2) = j + 2
                        from by omega]
                      exact hx2)
                constructor <;> intro hmem <;> rw [hbr] at hmem <;>
                  rcases List.mem_cons.1 hmem with heq | hmem2
                · omega
                · rcases List.mem_map.1 hmem2 with ⟨x, hx, hxe⟩
                  exact absurd (by rw [show j - qpToWrite l p + 1 = x from by omega]; exact hx)
                    hdrop.1
                · omega
                · rcases List.mem_map.1 hmem2 with ⟨x, hx, hxe⟩
                  exact absurd (by rw [show j - qpToWrite l p + 2 = x from by omega]; exact hx)
                    hdrop.2
              · have hge := qpWriteF_breaks_ge f (p.drop (qpToWrite l p)) t _ hrec
                have h61 : ∀ i : Nat, p.getD i 0 = 61 → isHex (p.getD i 0) = true → False := by
                  intro i hi hhex
                  rw [hi] at hhex
                  exact absurd hhex (by decide)
                constructor <;> intro hmem <;> rw [hbr] at hmem <;>
                  rcases List.mem_cons.1 hmem with heq | hmem2
                · -- j + 1 = qpToWrite l p, with j < qpToWrite l p
                  by_cases hc1 : 2 ≤ 76 - l ∧ p.getD (76 - l - 2) 0 = 61
                  · have htw : qpToWrite l p = 76 - l - 2 := by
                      unfold qpToWrite
                      rw [if_pos hc1]
                    refine h61 (j + 1) ?_ hx1
                    rw [show j + 1 = 76 - l - 2 from by omega]
                    exact hc1.2
                  · by_cases hc2 : p.getD (76 - l - 1) 0 = 61
                    · have htw : qpToWrite l p = 76 - l - 1 := by
                        unfold qpToWrite
                        rw [if_neg hc1, if_pos hc2]
                      have h2le : 2 ≤ 76 - l := by omega
                      refine absurd ⟨h2le, ?_⟩ hc1
                      rw [show 76 - l - 2 = j from by omega]
                      exact hj
                    · have htw : qpToWrite l p = 76 - l := by
                        unfold qpToWrite
                        rw [if_neg hc1, if_neg hc2]
                      refine absurd ?_ hc2
                      rw [show 76 - l - 1 = j from by omega]
                      exact hj
                · rcases List.mem_map.1 hmem2 with ⟨x, hx, hxe⟩
                  have := hge x hx
                  omega
                · -- j + 2 = qpToWrite l p, with j < qpToWrite l p
                  by_cases hc1 : 2 ≤ 76 - l ∧ p.getD (76 - l - 2) 0 = 61
                  · have htw : qpToWrite l p = 76 - l - 2 := by
                      unfold qpToWrite
                      rw [if_pos hc1]
                    refine h61 (j + 2) ?_ hx2
                    rw [show j + 2 = 76 - l - 2 from by omega]
                    exact hc1.2
                  · by_cases hc2 : p.getD (76 - l - 1) 0 = 61
                    · have htw : qpToWrite l p = 76 - l - 1 := by
                        unfold qpToWrite
                        rw [if_neg hc1, if_pos hc2]
                      refine h61 (j + 2) ?_ hx2
                      rw [show j + 2 = 76 - l - 1 from by omega]
                      exact hc2
                    · have htw : qpToWrite l p = 76 - l := by
                        unfold qpToWrite
                        rw [if_neg hc1, if_neg hc2]
                      have h2le : 2 ≤ 76 - l := by omega
                      refine absurd ⟨h2le, ?_⟩ hc1
                      rw [show 76 - l - 2 = j from by omega]
                      exact hj
                · rcases List.mem_map.1 hmem2 with ⟨x, hx, hxe⟩
                  have := hge x hx
                  omega
            | panic =>
              rw [hrec] at hout
              exact QpRes.noConfusion hout
            | fuelOut =>
              rw [hrec] at hout
              exact QpRes.noConfusion hout

/-- A `=XX` escape at position `j` of a byte sequence: the byte `'='`
followed by two hex digits, all inside the sequence. -/
def escapeAt (p : List Nat) (j : Nat) : Prop :=
  p.getD j 0 = 61 ∧ isHex (p.getD (j + 1) 0) = true ∧
    isHex (p.getD (j + 2) 0) = true ∧ j + 2 < p.length

instance (p : List Nat) (j : Nat) : Decidable (escapeAt p j) := by
  unfold escapeAt
  infer_instance

/-- Feeding successive chunks through one `qpLineWriter` (carried column),
concatenating the emitted tokens. -/
def qpRun : Nat → List QpTok → List (List Nat) → QpRes
  | l, acc, [] => QpRes.out acc l
  | l, acc, c :: rest =>
    match qpWrite l c with
    | QpRes.out t l' => qpRun l' (acc ++ t) rest
    | r => r

def qpRunAll (chunks : List (List Nat)) : QpRes :=
  qpRun 0 [] chunks

def isOut : QpRes → Bool
  | QpRes.out _ _ => true
  | _ => false

def qpOutBreaks : QpRes → List Nat
  | QpRes.out t _ => breaks t
  | _ => []

/-- **C4, counterexample** — the claim quantifies over every partition of
the input into write calls.  Split the input so one call ends with an
`'='` written at column 75 and the next call starts with its two hex
digits: the writer inserts the soft break after the first hex digit, at
data position 76 = 74 + 2, splitting the `=AB` escape that starts at
position 74 of the full input. -/
theorem c4_counterexample :
    escapeAt ((List.replicate 74 120 ++ [61]) ++ [65, 66, 48, 48]) 74 ∧
    isOut (qpRunAll [List.replicate 74 120 ++ [61], [65, 66, 48, 48]]) = true ∧
    74 + 2 ∈ qpOutBreaks (qpRunAll [List.replicate 74 120 ++ [61], [65, 66, 48, 48]]) := by
  refine ⟨by decide, by decide, by decide⟩

/-- **C4, amended** — within a *single* write call with carried column
0–75 that completes without the out-of-range slice access, no inserted
soft break falls between the `'='` of a `=XX` escape lying inside that
call's chunk and its two hex digits (escapes straddling a call boundary
can be split, and chunks of length 76−col or 77−col hit the out-of-range
slice). -/
theorem c4_no_split_single_write (l : Nat) (p : List Nat) (toks : List QpTok) (l' : Nat)
    (hl : l ≤ 75) (hout : qpWrite l p = QpRes.out toks l') (j : Nat)
    (hesc : escapeAt p j) :
    j + 1 ∉ breaks toks ∧ j + 2 ∉ breaks toks :=
  qpWriteF_no_split (p.length + l + 2) l p toks l' hl hout j
    hesc.2.2.2 hesc.1 hesc.2.1 hesc.2.2.1

/-- Closed instance of `c4_no_split_single_write`: an 83-byte single
write with an escape at position 70; the soft break lands at 76, not at
71 or 72. -/
theorem c4_no_split_single_write_witness :
    escapeAt (List.replicate 70 120 ++ 61 :: 65 :: 66 :: List.replicate 10 120) 70 ∧
    70 + 1 ∉ qpOutBreaks
      (qpWrite 0 (List.replicate 70 120 ++ 61 :: 65 :: 66 :: List.replicate 10 120)) ∧
    70 + 2 ∉ qpOutBreaks
      (qpWrite 0 (List.replicate 70 120 ++ 61 :: 65 :: 66 :: List.replicate 10 120)) := by
  have hiso : isOut
      (qpWrite 0 (List.replicate 70 120 ++ 61 :: 65 :: 66 :: List.replicate 10 120)) = true := by
    decide
  cases hq : qpWrite 0 (List.replicate 70 120 ++ 61 :: 65 :: 66 :: List.replicate 10 120) with
  | out t l' =>
    have h := c4_no_split_single_write 0
      (List.replicate 70 120 ++ 61 :: 65 :: 66 :: List.replicate 10 120) t l'
      (by omega) hq 70 (by decide)
    exact ⟨by decide, h.1, h.2⟩
  | panic =>
    rw [hq] at hiso
    exact absurd hiso (by decide)
  | fuelOut =>
    rw [hq] at hiso
    exact absurd hiso (by decide)

/-- **C10** — the claim that `qpLineWriter.Write` never takes a slice
bound beyond the input's length fails: a 76-byte chunk at column 0
passes the `len(p) < 76-lineLen` guard and then slices `p[:78]`, an
out-of-range bound (a panic whenever the slice has no spare capacity).
The model returns `panic` on exactly that access. -/
theorem c10_qp_slice_out_of_range :
    qpWrite 0 (List.replicate 76 97) = QpRes.panic ∧
    (List.replicate 76 97 : List Nat).length = 76 := by
  refine ⟨by decide, by decide⟩

/-! ## C9: error latching in the serializer
(writeto.go `messageWriter.Write`, `writeString`, `writeBody`,
`Message.WriteTo`)

The serializer state carries the byte count `n` and the error field
`err`.  The sink is modelled by a success script `sink : Nat → Bool`
(whether the i-th write attempt succeeds; a failed attempt writes
nothing).  Key source facts embedded here:
  * `Write` checks `w.err` first (no-op returning an error when set),
    otherwise writes and *assigns* the result to `w.err`;
  * `writeString` calls `io.WriteString(w.w, s)` directly — it neither
    checks nor sets `w.err`, and discards the write error;
  * `writeBody` (depth 0) writes the `"\r\n"` separator via
    `writeString`, hands the *raw sink* to the content producer, and
    assigns the producer's returned error to `w.err` (overwriting it);
  * `WriteTo` returns `(mw.n, mw.err)`.
The embedding covers the depth-0 slice of `writeMessage` (single-part,
no-file messages, for which all three multipart predicates are false),
with the `Unencoded` body path. -/

structure MWState where
  att : Nat
  outS : List String
  n : Nat
  err : Option Nat
deriving DecidableEq, Repr

/-- Error code of a sink failure at attempt `i`. -/
def sinkErr (i : Nat) : Nat := 100 + i

/-- `errors.New("gomail: cannot write as writer is in error")`. -/
def errWriterInError : Nat := 0

/-- One write attempt against the sink script: on success the string is
appended to the sink's output. -/
def sinkWrite (sink : Nat → Bool) (s : MWState) (str : String) : MWState × Bool :=
  if sink s.att then ({ s with att := s.att + 1, outS := s.outS ++ [str] }, true)
  else ({ s with att := s.att + 1 }, false)

/-- `messageWriter.Write`: returns the new state, the reported byte
count, and the returned error. -/
def mwWrite (sink : Nat → Bool) (s : MWState) (p : String) :
    MWState × Nat × Option Nat :=
  match s.err with
  | some _ => (s, 0, some errWriterInError)
  | none =>
    let r := sinkWrite sink s p
    if r.2 then ({ r.1 with n := r.1.n + p.length }, p.length, none)
    else ({ r.1 with err := some (sinkErr s.att) }, 0, some (sinkErr s.att))

/-- `messageWriter.writeString`: writes to the sink unconditionally,
ignores the error, never touches `w.err`. -/
def mwWriteString (sink : Nat → Bool) (s : MWState) (str : String) : MWState :=
  let r := sinkWrite sink s str
  if r.2 then { r.1 with n := r.1.n + str.length } else r.1

/-- `messageWriter.writeStrings`. -/
def mwWriteStrings (sink : Nat → Bool) (s : MWState) (a : List String)
    (sep : String) : MWState :=
  match a with
  | [] => s
  | x :: rest =>
    rest.foldl (fun st v => mwWriteString sink (mwWriteString sink st sep) v)
      (mwWriteString sink s x)

/-- `messageWriter.writeHeader`. -/
def mwWriteHeader (sink : Nat → Bool) (s : MWState) (k : String)
    (v : List String) : MWState :=
  mwWriteString sink
    (mwWriteStrings sink (mwWriteString sink (mwWriteString sink s k) ": ") v ", ")
    "\r\n"

/-- `messageWriter.writeHeaders`, depth-0 branch (skip "Bcc"). -/
def mwWriteHeaders (sink : Nat → Bool) (s : MWState)
    (h : List (String × List String)) : MWState :=
  h.foldl (fun st kv => if kv.1 ≠ "Bcc" then mwWriteHeader sink st kv.1 kv.2 else st) s

/-- A content producer `func(io.Writer) error`: writes to the writer it
is handed (the raw sink at depth 0) and returns an error value. -/
inductive Producer where
  | silent
  | fails (code : Nat)
  | writeAll (str : String)
deriving DecidableEq, Repr

def runProducer (sink : Nat → Bool) (s : MWState) : Producer → MWState × Option Nat
  | Producer.silent => (s, none)
  | Producer.fails c => (s, some c)
  | Producer.writeAll str =>
    let r := sinkWrite sink s str
    (r.1, if r.2 then none else some (sinkErr s.att))

/-- `messageWriter.writeBody` at depth 0 with `Unencoded`:
`writeString("\r\n")`, then `w.err = f(w.w)` — note the assignment
overwrites any previous error. -/
def mwWriteBody (sink : Nat → Bool) (s : MWState) (pr : Producer) : MWState :=
  let s1 := mwWriteString sink s "\r\n"
  let r := runProducer sink s1 pr
  { r.1 with err := r.2 }

structure FlatPart where
  contentType : String
  copier : Producer
deriving DecidableEq, Repr

/-- A message on the depth-0 path: headers plus body parts (no
attachments, no embedded files). -/
structure FlatMsg where
  header : List (String × List String)
  parts : List FlatPart
  charset : String

/-- `writeMessage` for messages whose three multipart predicates are
false (the multipart branches are skipped), with `Unencoded` bodies. -/
def mwWriteMessage (sink : Nat → Bool) (now : String) (msg : FlatMsg) : MWState :=
  let s0 : MWState := ⟨0, [], 0, none⟩
  let s1 := if (msg.header.find? (fun kv => kv.1 = "Mime-Version")).isSome then s0
    else mwWriteString sink s0 "Mime-Version: 1.0\r\n"
  let s2 := if (msg.header.find? (fun kv => kv.1 = "Date")).isSome then s1
    else mwWriteHeader sink s1 "Date" [now]
  let s3 := mwWriteHeaders sink s2 msg.header
  msg.parts.foldl (fun st part =>
    mwWriteBody sink
      (mwWriteHeaders sink st
        [("Content-Type", [part.contentType ++ "; charset=" ++ msg.charset]),
         ("Content-Transfer-Encoding", ["8bit"])])
      part.copier) s3

/-- `Message.WriteTo`: runs the render and returns `(mw.n, mw.err)`. -/
def mwWriteTo (sink : Nat → Bool) (now : String) (msg : FlatMsg) : Nat × Option Nat :=
  let s := mwWriteMessage sink now msg
  (s.n, s.err)

/-- **C9, counterexample** — render a single-part message to a sink that
fails every write: the very first sink write errors, yet the serializer
keeps attempting writes (header writes go through `writeString`, which
ignores errors and never latches) and `WriteTo` returns no error at all,
because `writeBody` overwrote `w.err` with the producer's `nil`. -/
theorem c9_counterexample :
    ((fun _ => false : Nat → Bool) 0 = false) ∧
    (mwWriteMessage (fun _ => false) "D"
      ⟨[("Mime-Version", ["1.0"]), ("Date", ["D"]), ("From", ["a@b.c"])],
       [⟨"text/plain", Producer.silent⟩], "UTF-8"⟩).att ≥ 2 ∧
    (mwWriteTo (fun _ => false) "D"
      ⟨[("Mime-Version", ["1.0"]), ("Date", ["D"]), ("From", ["a@b.c"])],
       [⟨"text/plain", Producer.silent⟩], "UTF-8"⟩).2 = none := by
  refine ⟨rfl, by decide, by decide⟩

/-- **C9, amended** — error latching holds exactly for writes routed
through the serializer's `Write` method: with an error recorded, `Write`
makes no sink attempt, writes nothing, and returns the writer-in-error
error; with no error recorded it latches the sink's failure, and on a
successful sink write it leaves no error and appends the bytes.  (Direct
header/separator writes via `writeString` bypass this check, and the
render's result is the last value assigned to the error field.) -/
theorem c9_write_latching (sink : Nat → Bool) (s : MWState) (p : String) :
    (∀ e, s.err = some e →
      (mwWrite sink s p).1 = s ∧ (mwWrite sink s p).2.1 = 0 ∧
      (mwWrite sink s p).2.2 = some errWriterInError) ∧
    (s.err = none → sink s.att = false →
      (mwWrite sink s p).1.err = some (sinkErr s.att) ∧
      (mwWrite sink s p).1.outS = s.outS) ∧
    (s.err = none → sink s.att = true →
      (mwWrite sink s p).1.err = none ∧
      (mwWrite sink s p).1.outS = s.outS ++ [p]) := by
  refine ⟨?_, ?_, ?_⟩
  · intro e he
    unfold mwWrite
    rw [he]
    exact ⟨rfl, rfl, rfl⟩
  · intro he hs
    unfold mwWrite sinkWrite
    rw [he, hs]
    simp
  · intro he hs
    unfold mwWrite sinkWrite
    rw [he, hs]
    simp

/-- Closed instance of `c9_write_latching` at a latched state: the write
is a no-op and errors out. -/
theorem c9_write_latching_witness :
    (mwWrite (fun _ => true) ⟨3, ["x"], 1, some 7⟩ "abc").1 = ⟨3, ["x"], 1, some 7⟩ ∧
    (mwWrite (fun _ => true) ⟨3, ["x"], 1, some 7⟩ "abc").2.1 = 0 ∧
    (mwWrite (fun _ => true) ⟨3, ["x"], 1, some 7⟩ "abc").2.2 = some errWriterInError :=
  (c9_write_latching (fun _ => true) ⟨3, ["x"], 1, some 7⟩ "abc").1 7 rfl

end Gomail
